import Mathlib

/-!
Shallow embedding of the midigen MIDI tokenizer (src/tokenizer.py and
src/midigen.py) and verification of its specification claims.

Python integers are modelled as `Int`, Python strings as `String`,
Python lists as `List`, and `mido` messages as the `MidiMsg` structure
(only the fields the program reads: `type`, `note`, `velocity`, `time`).
Python's stable `list.sort` is modelled by `List.insertionSort`, which is
likewise stable (equal-ranked elements keep their relative order), so both
compute the same function.  Fallible operations return `Option`/`Except`.
-/

namespace Midigen

/-- A MIDI message as consumed/produced by the program: `mido.Message`
restricted to the fields the code reads (`type`, `note`, `velocity`) and
writes (`time`, the delta time). -/
structure MidiMsg where
  type : String
  note : Int
  velocity : Int
  time : Int
deriving DecidableEq, Repr

/-- An extracted event, exactly the Python tuple
`(absolute_time, 'note_on' | 'note_off', note)` built in `midi_to_tokens`. -/
abbrev Event := Int × String × Int

/-- The 32-entry time-shift table `TIME_SHIFTS` (tokenizer.py lines 12-51). -/
def TIME_SHIFTS : List Int :=
  [10, 20, 30, 40, 60, 80, 120, 160, 240, 320, 480, 640, 960, 1920,
   2400, 2880, 3360, 3840, 4320, 4800, 5280, 5760,
   6240, 6720, 7200, 7680, 8160, 8640, 9120, 9600, 10080, 10560]

def TIME_SHIFT_BASE : Int := 256

def START_SEQUENCE : Int := 288

def END_SEQUENCE : Int := 289

/-- The dict `TIME_SHIFT_MAP = {shift: 256 + i}` (tokenizer.py line 55) as a
partial function from durations to tokens.  The table entries are pairwise
distinct, so the first index (`List.indexOf`) is the dict's binding. -/
def TIME_SHIFT_MAP (d : Int) : Option Int :=
  if d ∈ TIME_SHIFTS then some (TIME_SHIFT_BASE + (TIME_SHIFTS.indexOf d : Int)) else none

/-- The dict `REVERSE_TIME_SHIFT_MAP = {256 + i: shift}` (tokenizer.py
line 56) as a partial function from tokens to durations. -/
def REVERSE_TIME_SHIFT_MAP (t : Int) : Option Int :=
  if TIME_SHIFT_BASE ≤ t ∧ t < TIME_SHIFT_BASE + 32 then
    TIME_SHIFTS[(t - TIME_SHIFT_BASE).toNat]?
  else none

/-- Python's `min(l, key=f)` keeps the current best and replaces it only on a
strictly smaller key, so ties go to the earliest element.  This is the fold
that realizes that scan from an initial candidate `b`. -/
def argminFold (f : α → Int) (b : α) (l : List α) : α :=
  l.foldl (fun best y => if f y < f best then y else best) b

/-- Python's `min(l, key=f)`: `none` on the empty list (where Python raises). -/
def pyMin (f : α → Int) : List α → Option α
  | [] => none
  | x :: xs => some (argminFold f x xs)

/-- `find_closest_time_shift` (tokenizer.py lines 62-71): `None` for a zero
delta, otherwise the token of the table duration closest to the delta. -/
def find_closest_time_shift (delta : Int) : Option Int :=
  if delta = 0 then none
  else (pyMin (fun x => |x - delta|) TIME_SHIFTS).bind TIME_SHIFT_MAP

/-- The per-track event extraction loop of `midi_to_tokens` (tokenizer.py
lines 83-94): accumulate delta times into an absolute time, keep note-on
messages with positive velocity as `note_on` events, and note-off messages
or note-on messages with zero velocity as `note_off` events. -/
def extractTrack : List MidiMsg → Int → List Event
  | [], _ => []
  | m :: ms, t =>
    let t' := t + m.time
    (if m.type = "note_on" ∧ m.velocity > 0 then [(t', "note_on", m.note)]
     else if m.type = "note_off" ∨ (m.type = "note_on" ∧ m.velocity = 0) then
       [(t', "note_off", m.note)]
     else []) ++ extractTrack ms t'

/-- All events appended across tracks, in track iteration order, before the
`events.sort()` call (tokenizer.py lines 81-94). -/
def raw_events (tracks : List (List MidiMsg)) : List Event :=
  (tracks.map (fun tr => extractTrack tr 0)).flatten

/-- Python's string comparison: code-point lexicographic on the character
sequences (the same relation as Lean's `String.lt`, in a structurally
recursive form). -/
def charListLt : List Char → List Char → Bool
  | [], [] => false
  | [], _ :: _ => true
  | _ :: _, [] => false
  | c :: cs, d :: ds =>
    if c < d then true
    else if d < c then false
    else charListLt cs ds

/-- Python's `a < b` on strings. -/
def pyStrLt (a b : String) : Bool :=
  charListLt a.data b.data

/-- Python's comparison on the event tuples `(time, kind, note)`: lexicographic
over `Int`, `String` (code-point order) and `Int`, as used by `events.sort()`. -/
def pyEventLE (a b : Event) : Bool :=
  decide (a.1 < b.1) ||
    (decide (a.1 = b.1) &&
      (pyStrLt a.2.1 b.2.1 ||
        (decide (a.2.1 = b.2.1) && decide (a.2.2 ≤ b.2.2))))

/-- The event list after `events.sort()` (tokenizer.py line 97): Python's
stable sort under full tuple comparison.  Tuple comparison is a total order,
so equal-ranked elements are equal tuples and every sort computes the same
list; stable insertion sort realizes it. -/
def extract_events (tracks : List (List MidiMsg)) : List Event :=
  (raw_events tracks).insertionSort (fun a b => pyEventLE a b = true)

/-- The note-event token of one event (tokenizer.py lines 106-109). -/
def noteToken (e : Event) : Int :=
  if e.2.1 = "note_on" then e.2.2 else e.2.2 + 128

/-- The time-shift tokens emitted between an event and its successor
(tokenizer.py lines 111-118): nothing unless the delta is positive, else the
closest table token when the lookup yields one. -/
def shiftChunk (cur next : Event) : List Int :=
  let delta := next.1 - cur.1
  if 0 < delta then
    match find_closest_time_shift delta with
    | some t => [t]
    | none => []
  else []

/-- The token-emission loop of `midi_to_tokens` (tokenizer.py lines 102-118):
each iteration looks at the current event and, when present, the next one. -/
def eventBodyTokens : List Event → List Int
  | [] => []
  | e :: rest =>
    noteToken e ::
      ((match rest with
        | [] => []
        | e2 :: _ => shiftChunk e e2) ++ eventBodyTokens rest)

/-- `midi_to_tokens` from the sorted event list on (tokenizer.py
lines 100-123): `[START_SEQUENCE]`, the loop's tokens, then `END_SEQUENCE`. -/
def events_to_tokens (evs : List Event) : List Int :=
  START_SEQUENCE :: eventBodyTokens evs ++ [END_SEQUENCE]

/-- The whole forward pipeline `midi_to_tokens` (tokenizer.py lines 73-123)
from the in-memory track contents. -/
def midi_to_tokens (tracks : List (List MidiMsg)) : List Int :=
  events_to_tokens (extract_events tracks)

/-- The marker stripping of `tokens_to_midi` (tokenizer.py lines 133-143):
Python's `tokens[start_idx:end_idx]` is `drop`-then-`take`. -/
def stripMarkers (tokens : List Int) : List Int :=
  let start := if tokens.head? = some START_SEQUENCE then 1 else 0
  let stop :=
    if tokens.getLast? = some END_SEQUENCE then tokens.length - 1 else tokens.length
  (tokens.drop start).take (stop - start)

/-- The token walk of `tokens_to_midi` (tokenizer.py lines 145-167): note
tokens append a pending `(current_time, message)` pair, time-shift tokens
advance the cursor, anything else is skipped. -/
def collect (vel : Int) : List Int → Int → List (Int × MidiMsg)
  | [], _ => []
  | t :: ts, cur =>
    if 0 ≤ t ∧ t ≤ 127 then
      (cur, ⟨"note_on", t, vel, 0⟩) :: collect vel ts cur
    else if 128 ≤ t ∧ t ≤ 255 then
      (cur, ⟨"note_off", t - 128, 0, 0⟩) :: collect vel ts cur
    else
      match REVERSE_TIME_SHIFT_MAP t with
      | some s => collect vel ts (cur + s)
      | none => collect vel ts cur

/-- The `pending_events` list of `tokens_to_midi` right before sorting. -/
def pendingEvents (tokens : List Int) (vel : Int) : List (Int × MidiMsg) :=
  collect vel (stripMarkers tokens) 0

/-- `pending_events.sort(key=lambda x: x[0])` (tokenizer.py line 170): stable
sort on the absolute time alone, modelled by stable insertion sort. -/
def sortedPending (tokens : List Int) (vel : Int) : List (Int × MidiMsg) :=
  (pendingEvents tokens vel).insertionSort (fun a b => a.1 ≤ b.1)

/-- The delta-time conversion loop (tokenizer.py lines 172-178): each message
gets the difference between its absolute time and the previous one. -/
def deltaTrack : List (Int × MidiMsg) → Int → List MidiMsg
  | [], _ => []
  | (t, m) :: rest, last => { m with time := t - last } :: deltaTrack rest t

/-- The single output track written by `tokens_to_midi`. -/
def tokens_to_midi_track (tokens : List Int) (vel : Int) : List MidiMsg :=
  deltaTrack (sortedPending tokens vel) 0

/-- `token_to_readable` (tokenizer.py lines 182-195). -/
def token_to_readable (t : Int) : String :=
  if t = START_SEQUENCE then "START_SEQUENCE"
  else if t = END_SEQUENCE then "END_SEQUENCE"
  else if 0 ≤ t ∧ t ≤ 127 then "NOTE_ON " ++ toString t
  else if 128 ≤ t ∧ t ≤ 255 then "NOTE_OFF " ++ toString (t - 128)
  else
    match REVERSE_TIME_SHIFT_MAP t with
    | some s => "TIME_SHIFT " ++ toString s
    | none => "UNKNOWN " ++ toString t

/-- Python's `str.strip()` on a string given as its character list: drop
leading and trailing whitespace. -/
def pyStrip (cs : List Char) : List Char :=
  ((cs.dropWhile Char.isWhitespace).reverse.dropWhile Char.isWhitespace).reverse

/-- Python's `str.split(sep)` for a one-character separator: `""` splits to
`[""]`, and every separator occurrence opens a new piece. -/
def splitOnChar (sep : Char) : List Char → List (List Char)
  | [] => [[]]
  | c :: rest =>
    if c = sep then [] :: splitOnChar sep rest
    else
      match splitOnChar sep rest with
      | [] => [[c]]
      | l :: ls => (c :: l) :: ls

/-- Decimal digit run for `int(s)`: at least one digit, all digits. -/
def pyIntDigits (cs : List Char) : Option Nat :=
  if cs ≠ [] ∧ cs.all (fun c => c.isDigit) then
    some (cs.foldl (fun n c => 10 * n + (c.toNat - 48)) 0)
  else none

/-- Python's `int(s)` on an already-stripped string: optional sign followed
by at least one decimal digit.  Modelled from the Python standard library
semantics (underscore separators and non-decimal bases are out of scope). -/
def pyInt : List Char → Option Int
  | [] => none
  | c :: rest =>
    if c = '-' then (pyIntDigits rest).map (fun n => -(n : Int))
    else if c = '+' then (pyIntDigits rest).map (fun n => (n : Int))
    else (pyIntDigits (c :: rest)).map (fun n => (n : Int))

/-- Python's `ast.literal_eval`, modelled from the Python standard library
documentation and restricted to the list-of-integer literals relevant to the
token-file format: surrounding whitespace, `[`, comma-separated integers with
an optional trailing comma, `]`.  Any other content fails (`none`), as the
real `literal_eval` does on empty or malformed input. -/
def pyLiteralEvalIntList (content : List Char) : Option (List Int) :=
  let s := pyStrip content
  if s.head? = some '[' ∧ s.getLast? = some ']' ∧ 2 ≤ s.length then
    let inner := pyStrip ((s.drop 1).dropLast)
    if inner = [] then some []
    else
      let parts := (splitOnChar ',' inner).map pyStrip
      let parts := if parts.getLast? = some [] then parts.dropLast else parts
      parts.mapM pyInt
  else none

/-- `read_tokens_from_file` (tokenizer.py lines 197-206) on the file content:
try `ast.literal_eval`; on any failure fall back to one integer per non-blank
line, where a non-integer line raises (`Except.error`). -/
def read_tokens_from_file (content : String) : Except String (List Int) :=
  match pyLiteralEvalIntList content.data with
  | some l => Except.ok l
  | none =>
    let lines := ((splitOnChar '\n' content.data).map pyStrip).filter
      (fun line => line ≠ [])
    match lines.mapM pyInt with
    | some ints => Except.ok ints
    | none => Except.error "invalid literal for int() with base 10"

/-- Spec side, §4.2 nearest-duration rule stated over table positions: scan
the table indices in order and keep the first index minimizing the absolute
difference to the delta; the token is `TIME_SHIFT_BASE` plus that index. -/
def specClosestShiftToken (delta : Int) : Int :=
  TIME_SHIFT_BASE +
    ((argminFold (fun j => |TIME_SHIFTS.getD j 0 - delta|) 0 (List.range' 1 31) : Nat) : Int)

/-- Spec side, §4.2 forward codec body: for each event emit its note token;
between consecutive events emit the closest time-shift token exactly when the
delta is strictly positive; nothing after the last event. -/
def specBodyTokens : List Event → List Int
  | [] => []
  | [e] => [noteToken e]
  | e :: e2 :: rest =>
    noteToken e ::
      ((if 0 < e2.1 - e.1 then [specClosestShiftToken (e2.1 - e.1)] else []) ++
        specBodyTokens (e2 :: rest))

/-- Spec side, §4.2: `START_SEQUENCE`, the body, `END_SEQUENCE`. -/
def specForwardTokens (evs : List Event) : List Int :=
  START_SEQUENCE :: specBodyTokens evs ++ [END_SEQUENCE]

/-- The claim's reading of event sorting (§4.1): sort by absolute time alone,
ties keeping the original relative order (insertion sort is stable). -/
def stableByTimeSort (l : List Event) : List Event :=
  l.insertionSort (fun a b => a.1 ≤ b.1)

/-- Tokens that are neither sequence marker. -/
def notMarker (t : Int) : Bool :=
  !(t == START_SEQUENCE || t == END_SEQUENCE)

/-- Python's tuple comparison on events, as a proposition: lexicographic on
(time, kind string, note), string order being code-point lexicographic. -/
def eventTupleLE (a b : Event) : Prop :=
  a.1 < b.1 ∨
    (a.1 = b.1 ∧ (pyStrLt a.2.1 b.2.1 = true ∨ (a.2.1 = b.2.1 ∧ a.2.2 ≤ b.2.2)))

/-! ## Helper lemmas: the first-minimum scan underlying Python's `min(key=...)` -/

theorem argminFold_split (f : α → Int) (b : α) (l : List α) :
    (argminFold f b l = b ∧ ∀ y ∈ l, f b ≤ f y) ∨
    (∃ l1 l2, l = l1 ++ argminFold f b l :: l2 ∧
      f (argminFold f b l) < f b ∧
      (∀ y ∈ l1, f (argminFold f b l) < f y) ∧
      (∀ y ∈ l2, f (argminFold f b l) ≤ f y)) := by
  induction l generalizing b with
  | nil => exact Or.inl ⟨rfl, by simp⟩
  | cons y ys ih =>
    have hstep : argminFold f b (y :: ys) = argminFold f (if f y < f b then y else b) ys := rfl
    by_cases hy : f y < f b
    · rw [hstep, if_pos hy]
      rcases ih y with ⟨heq, hmin⟩ | ⟨l1, l2, hsplit, hlt, hl1, hl2⟩
      · refine Or.inr ⟨[], ys, by simp [heq], by rw [heq]; exact hy, by simp, ?_⟩
        intro z hz
        rw [heq]
        exact hmin z hz
      · refine Or.inr ⟨y :: l1, l2,
          (congrArg (fun t => y :: t) hsplit).trans (List.cons_append y l1 _).symm,
          lt_trans hlt hy, ?_, hl2⟩
        intro z hz
        rcases List.mem_cons.mp hz with hzy | hz'
        · rw [hzy]; exact hlt
        · exact hl1 z hz'
    · rw [hstep, if_neg hy]
      have hyb : f b ≤ f y := le_of_not_lt hy
      rcases ih b with ⟨heq, hmin⟩ | ⟨l1, l2, hsplit, hlt, hl1, hl2⟩
      · refine Or.inl ⟨heq, ?_⟩
        intro z hz
        rcases List.mem_cons.mp hz with hzy | hz'
        · rw [hzy]; exact hyb
        · exact hmin z hz'
      · refine Or.inr ⟨y :: l1, l2,
          (congrArg (fun t => y :: t) hsplit).trans (List.cons_append y l1 _).symm,
          hlt, ?_, hl2⟩
        intro z hz
        rcases List.mem_cons.mp hz with hzy | hz'
        · rw [hzy]; exact lt_of_lt_of_le hlt hyb
        · exact hl1 z hz'

theorem argminFold_mem (f : α → Int) (b : α) (l : List α) :
    argminFold f b l ∈ b :: l := by
  rcases argminFold_split f b l with ⟨heq, _⟩ | ⟨l1, l2, hsplit, _, _, _⟩
  · rw [heq]; exact List.mem_cons_self _ _
  · have hm : argminFold f b l ∈ l1 ++ argminFold f b l :: l2 :=
      List.mem_append.mpr (Or.inr (List.mem_cons_self _ _))
    rw [← hsplit] at hm
    exact List.mem_cons.mpr (Or.inr hm)

theorem getElem?_append_cons (l1 : List α) (r : α) (l2 : List α) :
    (l1 ++ r :: l2)[l1.length]? = some r := by
  induction l1 with
  | nil => simp
  | cons a t ih => simpa using ih

/-- `pyMin` returns the first element minimizing the key: it is a member, its
key is a lower bound, and every strictly earlier element has a strictly
larger key. -/
theorem pyMin_spec (f : α → Int) (l : List α) (hl : l ≠ []) :
    ∃ (k : Nat) (r : α), pyMin f l = some r ∧ l[k]? = some r ∧
      (∀ y ∈ l, f r ≤ f y) ∧
      (∀ j, j < k → ∀ y, l[j]? = some y → f r < f y) := by
  cases l with
  | nil => exact absurd rfl hl
  | cons x xs =>
    rcases argminFold_split f x xs with ⟨heq, hmin⟩ | ⟨l1, l2, hsplit, hlt, hl1, hl2⟩
    · refine ⟨0, x, by rw [pyMin, heq], by simp, ?_, ?_⟩
      · intro y hy
        rcases List.mem_cons.mp hy with rfl | hy'
        · exact le_refl _
        · exact hmin y hy'
      · intro j hj y _
        exact absurd hj (Nat.not_lt_zero j)
    · refine ⟨l1.length + 1, argminFold f x xs, rfl, ?_, ?_, ?_⟩
      · have hg := getElem?_append_cons l1 (argminFold f x xs) l2
        rw [← hsplit] at hg
        simpa using hg
      · intro y hy
        rcases List.mem_cons.mp hy with rfl | hy'
        · exact le_of_lt hlt
        · rw [hsplit] at hy'
          rcases List.mem_append.mp hy' with h1 | h2
          · exact le_of_lt (hl1 y h1)
          · rcases List.mem_cons.mp h2 with rfl | h3
            · exact le_refl _
            · exact hl2 y h3
      · intro j hj y hy
        cases j with
        | zero =>
          have hxy : x = y := by simpa using hy
          subst hxy
          exact hlt
        | succ m =>
          have hm : m < l1.length := by omega
          have hxs : xs[m]? = some y := by simpa using hy
          rw [hsplit, List.getElem?_append_left hm] at hxs
          exact hl1 y (List.getElem?_mem hxs)

theorem indexOf_eq_of_getElem? (l : List Int) (k : Nat) (r : Int)
    (hget : l[k]? = some r) (hbefore : ∀ j, j < k → l[j]? ≠ some r) :
    l.indexOf r = k := by
  induction l generalizing k with
  | nil => simp at hget
  | cons a t ih =>
    cases k with
    | zero =>
      have : a = r := by simpa using hget
      subst this
      exact List.indexOf_cons_self a t
    | succ m =>
      have hne : a ≠ r := by
        intro h
        exact hbefore 0 (Nat.succ_pos m) (by simp [h])
      have hget' : t[m]? = some r := by simpa using hget
      have hbefore' : ∀ j, j < m → t[j]? ≠ some r := by
        intro j hj
        have := hbefore (j + 1) (by omega)
        simpa using this
      rw [List.indexOf_cons_ne t hne, ih m hget' hbefore']

/-! ## Claim C4 -/

/-- C4: for every positive delta, `find_closest_time_shift` returns the token
`TIME_SHIFT_BASE + k` of a table entry `d` at position `k` that minimizes the
absolute difference to the delta, and every strictly earlier table entry has
a strictly larger absolute difference, so ties go to the entry occurring
first in table order; the result is uniquely determined by these facts. -/
theorem find_closest_time_shift_spec (delta : Int) (h : 0 < delta) :
    ∃ (k : Nat) (d : Int), TIME_SHIFTS[k]? = some d ∧
      find_closest_time_shift delta = some (TIME_SHIFT_BASE + (k : Int)) ∧
      (∀ y ∈ TIME_SHIFTS, |d - delta| ≤ |y - delta|) ∧
      (∀ j, j < k → ∀ y, TIME_SHIFTS[j]? = some y → |d - delta| < |y - delta|) := by
  obtain ⟨k, r, hpm, hget, hmin, hfirst⟩ :=
    pyMin_spec (fun x => |x - delta|) TIME_SHIFTS (by decide)
  refine ⟨k, r, hget, ?_, hmin, hfirst⟩
  have hmem : r ∈ TIME_SHIFTS := List.getElem?_mem hget
  have hidx : TIME_SHIFTS.indexOf r = k := by
    apply indexOf_eq_of_getElem? _ _ _ hget
    intro j hj heq
    exact absurd (hfirst j hj r heq) (lt_irrefl _)
  show (if delta = 0 then none
    else (pyMin (fun x => |x - delta|) TIME_SHIFTS).bind TIME_SHIFT_MAP) = _
  rw [if_neg (ne_of_gt h), hpm]
  show TIME_SHIFT_MAP r = some (TIME_SHIFT_BASE + (k : Int))
  rw [TIME_SHIFT_MAP, if_pos hmem, hidx]

/-- Witness for C4 at the tie delta 25 (equidistant from table entries 20
and 30). -/
theorem find_closest_time_shift_spec_witness :
    ∃ (k : Nat) (d : Int), TIME_SHIFTS[k]? = some d ∧
      find_closest_time_shift 25 = some (TIME_SHIFT_BASE + (k : Int)) ∧
      (∀ y ∈ TIME_SHIFTS, |d - 25| ≤ |y - 25|) ∧
      (∀ j, j < k → ∀ y, TIME_SHIFTS[j]? = some y → |d - 25| < |y - 25|) :=
  find_closest_time_shift_spec 25 (by decide)

/-! ## Claim C6 -/

/-- C6: mapping each of the 32 table durations to its token and back returns
the same duration, and mapping each token in 256-287 to its duration and
back returns the same token. -/
theorem time_shift_bijection :
    (∀ i : Fin 32, ((TIME_SHIFTS[(i : Nat)]?).bind fun d =>
        (TIME_SHIFT_MAP d).bind REVERSE_TIME_SHIFT_MAP) = TIME_SHIFTS[(i : Nat)]?) ∧
    (∀ i : Fin 32, ((REVERSE_TIME_SHIFT_MAP (TIME_SHIFT_BASE + ((i : Nat) : Int))).bind
        TIME_SHIFT_MAP) = some (TIME_SHIFT_BASE + ((i : Nat) : Int))) := by
  decide

/-! ## Claim C2 -/

/-- C2 (code behavior at the failing inputs): content that parses as neither
a list literal nor as one integer per non-blank line — empty content, or
content of blank lines only — makes `read_tokens_from_file` silently return
the empty token list instead of a parse error. -/
theorem read_tokens_blank_silent_empty :
    read_tokens_from_file "" = Except.ok [] ∧
    read_tokens_from_file "\n \n" = Except.ok [] := by
  constructor <;> rfl

/-! ## Claim C3 -/

set_option maxRecDepth 8000 in
/-- C3: tokenizing the two-event list and detokenizing recovers exactly two
events: a NOTE_ON of pitch 60 at time exactly 0 and a NOTE_OFF of pitch 60
at time exactly 480 (480 is an exact table entry). -/
theorem roundtrip_example :
    events_to_tokens [(0, "note_on", 60), (480, "note_off", 60)] =
      [288, 60, 266, 188, 289] ∧
    sortedPending (events_to_tokens [(0, "note_on", 60), (480, "note_off", 60)]) 64 =
      [(0, ⟨"note_on", 60, 64, 0⟩), (480, ⟨"note_off", 60, 0, 0⟩)] := by
  constructor <;> decide

/-! ## Claim C1 -/

theorem pyEventLE_iff (a b : Event) : pyEventLE a b = true ↔ eventTupleLE a b := by
  simp [pyEventLE, eventTupleLE]

theorem charListLt_trichotomy (cs ds : List Char) :
    charListLt cs ds = true ∨ cs = ds ∨ charListLt ds cs = true := by
  induction cs generalizing ds with
  | nil =>
    cases ds with
    | nil => exact Or.inr (Or.inl rfl)
    | cons d ds => exact Or.inl rfl
  | cons c cs ih =>
    cases ds with
    | nil => exact Or.inr (Or.inr rfl)
    | cons d ds =>
      rcases lt_trichotomy c d with h | h | h
      · left
        simp [charListLt, h]
      · subst h
        rcases ih ds with h1 | h1 | h1
        · left
          simp [charListLt, lt_irrefl, h1]
        · right; left
          rw [h1]
        · right; right
          simp [charListLt, lt_irrefl, h1]
      · right; right
        simp [charListLt, h]

theorem charListLt_trans (as bs cs : List Char)
    (h1 : charListLt as bs = true) (h2 : charListLt bs cs = true) :
    charListLt as cs = true := by
  induction as generalizing bs cs with
  | nil =>
    cases bs with
    | nil => simp [charListLt] at h1
    | cons b bs =>
      cases cs with
      | nil => simp [charListLt] at h2
      | cons c cs => rfl
  | cons a as ih =>
    cases bs with
    | nil => simp [charListLt] at h1
    | cons b bs =>
      cases cs with
      | nil => simp [charListLt] at h2
      | cons c cs =>
        by_cases hab : a < b
        · by_cases hbc : b < c
          · simp [charListLt, lt_trans hab hbc]
          · by_cases hcb : c < b
            · simp [charListLt, hbc, hcb] at h2
            · have hbceq : b = c := le_antisymm (le_of_not_lt hcb) (le_of_not_lt hbc)
              subst hbceq
              simp [charListLt, hab]
        · by_cases hba : b < a
          · simp [charListLt, hab, hba] at h1
          · have habeq : a = b := le_antisymm (le_of_not_lt hba) (le_of_not_lt hab)
            subst habeq
            simp only [charListLt, lt_irrefl, ite_false] at h1
            by_cases hac : a < c
            · simp [charListLt, hac]
            · by_cases hca : c < a
              · simp [charListLt, hac, hca] at h2
              · have haceq : a = c := le_antisymm (le_of_not_lt hca) (le_of_not_lt hac)
                subst haceq
                simp only [charListLt, lt_irrefl, ite_false] at h2 ⊢
                exact ih bs cs h1 h2

theorem string_eq_of_data (s t : String) (h : s.data = t.data) : s = t := by
  cases s
  cases t
  exact congrArg String.mk h

theorem pyStrLt_trichotomy (s t : String) :
    pyStrLt s t = true ∨ s = t ∨ pyStrLt t s = true := by
  rcases charListLt_trichotomy s.data t.data with h | h | h
  · exact Or.inl h
  · exact Or.inr (Or.inl (string_eq_of_data s t h))
  · exact Or.inr (Or.inr h)

theorem eventTupleLE_total : ∀ a b : Event, eventTupleLE a b ∨ eventTupleLE b a := by
  intro a b
  unfold eventTupleLE
  rcases lt_trichotomy a.1 b.1 with h | h | h
  · exact Or.inl (Or.inl h)
  · rcases pyStrLt_trichotomy a.2.1 b.2.1 with h2 | h2 | h2
    · exact Or.inl (Or.inr ⟨h, Or.inl h2⟩)
    · rcases le_total a.2.2 b.2.2 with h3 | h3
      · exact Or.inl (Or.inr ⟨h, Or.inr ⟨h2, h3⟩⟩)
      · exact Or.inr (Or.inr ⟨h.symm, Or.inr ⟨h2.symm, h3⟩⟩)
    · exact Or.inr (Or.inr ⟨h.symm, Or.inl h2⟩)
  · exact Or.inr (Or.inl h)

theorem eventTupleLE_trans :
    ∀ a b c : Event, eventTupleLE a b → eventTupleLE b c → eventTupleLE a c := by
  intro a b c hab hbc
  unfold eventTupleLE at hab hbc ⊢
  rcases hab with h1 | ⟨e1, h1⟩
  · rcases hbc with h2 | ⟨e2, _⟩
    · exact Or.inl (lt_trans h1 h2)
    · exact Or.inl (by rw [← e2]; exact h1)
  · rcases hbc with h2 | ⟨e2, h2⟩
    · exact Or.inl (by rw [e1]; exact h2)
    · refine Or.inr ⟨e1.trans e2, ?_⟩
      rcases h1 with s1 | ⟨f1, n1⟩
      · rcases h2 with s2 | ⟨f2, _⟩
        · exact Or.inl (charListLt_trans _ _ _ s1 s2)
        · exact Or.inl (by rw [← f2]; exact s1)
      · rcases h2 with s2 | ⟨f2, n2⟩
        · exact Or.inl (by rw [f1]; exact s2)
        · exact Or.inr ⟨f1.trans f2, le_trans n1 n2⟩

theorem eventTupleLE_time_le (a b : Event) (h : eventTupleLE a b) : a.1 ≤ b.1 := by
  unfold eventTupleLE at h
  rcases h with h | ⟨e, _⟩
  · exact le_of_lt h
  · exact le_of_eq e

/-- C1 counterexample: for a single track holding a note-on and a note-off of
pitch 60 both at absolute time 0, the code's `events.sort()` (full tuple
comparison) reorders the equal-time events — `"note_off" < "note_on"` as
strings — so the result differs from a stable sort by absolute time alone,
which is what the claim asserts. -/
theorem extract_tiebreak_counterexample :
    extract_events [[⟨"note_on", 60, 64, 0⟩, ⟨"note_off", 60, 64, 0⟩]] ≠
      stableByTimeSort (raw_events [[⟨"note_on", 60, 64, 0⟩, ⟨"note_off", 60, 64, 0⟩]]) := by
  decide

/-- C1 amended: the concatenated extracted events are sorted by Python's full
tuple comparison — ascending absolute time, with equal-time ties ordered by
kind string (`"note_off"` before `"note_on"`) and then pitch, not by original
extraction order — and the sorted list is a permutation of the concatenated
extraction; in particular it is sorted by absolute time ascending. -/
theorem extract_events_sorted_perm (tracks : List (List MidiMsg)) :
    (extract_events tracks).Perm (raw_events tracks) ∧
    (extract_events tracks).Pairwise eventTupleLE ∧
    (extract_events tracks).Pairwise (fun a b : Event => a.1 ≤ b.1) := by
  haveI : IsTotal Event (fun a b => pyEventLE a b = true) := by
    constructor
    intro a b
    rw [pyEventLE_iff, pyEventLE_iff]
    exact eventTupleLE_total a b
  haveI : IsTrans Event (fun a b => pyEventLE a b = true) := by
    constructor
    intro a b c hab hbc
    rw [pyEventLE_iff] at hab hbc ⊢
    exact eventTupleLE_trans a b c hab hbc
  have hsorted := List.sorted_insertionSort
    (fun a b : Event => pyEventLE a b = true) (raw_events tracks)
  refine ⟨List.perm_insertionSort _ _, ?_, ?_⟩
  · exact hsorted.imp (fun h => (pyEventLE_iff _ _).mp h)
  · exact hsorted.imp (fun h => eventTupleLE_time_le _ _ ((pyEventLE_iff _ _).mp h))

/-! ## Claim C7 -/

theorem notMarker_iff (t : Int) : notMarker t = true ↔ t ≠ 288 ∧ t ≠ 289 := by
  simp [notMarker, START_SEQUENCE, END_SEQUENCE]

theorem reverse_map_range (t s : Int) (h : REVERSE_TIME_SHIFT_MAP t = some s) :
    256 ≤ t ∧ t < 288 := by
  unfold REVERSE_TIME_SHIFT_MAP at h
  split at h
  · rename_i hc
    unfold TIME_SHIFT_BASE at hc
    omega
  · simp at h

theorem collect_filter (vel : Int) (ts : List Int) (cur : Int) :
    collect vel ts cur = collect vel (ts.filter notMarker) cur := by
  induction ts generalizing cur with
  | nil => rfl
  | cons t ts ih =>
    by_cases h1 : 0 ≤ t ∧ t ≤ 127
    · have hm : notMarker t = true := by rw [notMarker_iff]; omega
      simp only [collect, List.filter_cons, hm, if_pos h1, ite_true]
      rw [ih]
    · by_cases h2 : 128 ≤ t ∧ t ≤ 255
      · have hm : notMarker t = true := by rw [notMarker_iff]; omega
        simp only [collect, List.filter_cons, hm, if_neg h1, if_pos h2, ite_true]
        rw [ih]
      · rcases hrev : REVERSE_TIME_SHIFT_MAP t with _ | s
        · by_cases hm : notMarker t = true
          · simp only [collect, List.filter_cons, hm, if_neg h1, if_neg h2, hrev, ite_true]
            exact ih cur
          · simp only [collect, List.filter_cons, hm, if_neg h1, if_neg h2, hrev,
              Bool.false_eq_true, ite_false]
            exact ih cur
        · have hm : notMarker t = true := by
            rw [notMarker_iff]
            have := reverse_map_range t s hrev
            omega
          simp only [collect, List.filter_cons, hm, if_neg h1, if_neg h2, hrev, ite_true]
          exact ih (cur + s)

/-- `stripMarkers` restated without slice arithmetic: drop the head when it
is `START_SEQUENCE`, then drop the last element when the original list ended
in `END_SEQUENCE`. -/
theorem stripMarkers_eq (ts : List Int) :
    stripMarkers ts =
      if ts.getLast? = some END_SEQUENCE then
        (if ts.head? = some START_SEQUENCE then ts.drop 1 else ts).dropLast
      else if ts.head? = some START_SEQUENCE then ts.drop 1 else ts := by
  simp only [stripMarkers]
  by_cases h1 : ts.head? = some START_SEQUENCE <;>
    by_cases h2 : ts.getLast? = some END_SEQUENCE <;>
      simp only [h1, h2, ite_true, ite_false, if_pos, if_neg, not_false_iff]
  · rw [List.dropLast_eq_take, List.length_drop]
  · conv_lhs => rw [← List.length_drop 1 ts]
    exact List.take_length _
  · rw [List.dropLast_eq_take]
    simp
  · simp

theorem filter_drop_one_of_head (l : List Int) (hS : l.head? = some START_SEQUENCE) :
    (l.drop 1).filter notMarker = l.filter notMarker := by
  cases l with
  | nil => simp at hS
  | cons a t =>
    have ha : a = START_SEQUENCE := by simpa using hS
    subst ha
    simp [List.filter_cons, notMarker, START_SEQUENCE, END_SEQUENCE]

theorem filter_dropLast_of_getLast (l : List Int) (hE : l.getLast? = some END_SEQUENCE) :
    l.dropLast.filter notMarker = l.filter notMarker := by
  have hne : l ≠ [] := by
    intro h
    rw [h] at hE
    simp at hE
  conv_rhs => rw [← List.dropLast_append_getLast hne]
  have hg : l.getLast hne = END_SEQUENCE := by
    have hgl := List.getLast?_eq_getLast l hne
    rw [hgl] at hE
    exact Option.some.inj hE
  rw [List.filter_append, hg]
  simp [notMarker, END_SEQUENCE, START_SEQUENCE]

theorem stripMarkers_filter (ts : List Int) :
    (stripMarkers ts).filter notMarker = ts.filter notMarker := by
  rw [stripMarkers_eq]
  by_cases h2 : ts.getLast? = some END_SEQUENCE
  · rw [if_pos h2]
    by_cases h1 : ts.head? = some START_SEQUENCE
    · rw [if_pos h1]
      have hd : (ts.drop 1).getLast? = some END_SEQUENCE := by
        cases ts with
        | nil => simp at h2
        | cons a t =>
          cases t with
          | nil =>
            have ha : a = START_SEQUENCE := by simpa using h1
            have hb : a = END_SEQUENCE := by simpa using h2
            rw [ha] at hb
            exact absurd hb (by decide)
          | cons b t' => simpa using h2
      rw [filter_dropLast_of_getLast _ hd, filter_drop_one_of_head _ h1]
    · rw [if_neg h1]
      exact filter_dropLast_of_getLast _ h2
  · rw [if_neg h2]
    by_cases h1 : ts.head? = some START_SEQUENCE
    · rw [if_pos h1]
      exact filter_drop_one_of_head _ h1
    · rw [if_neg h1]

/-- C7: the pending events recovered by detokenization are exactly those of
the marker-free token stream: the single leading `START_SEQUENCE` and single
trailing `END_SEQUENCE` are stripped, and every other occurrence of 288 or
289 produces no event and leaves the time cursor unchanged, so no output
event derives from a marker token. -/
theorem markers_contribute_nothing (tokens : List Int) (vel : Int) :
    pendingEvents tokens vel = collect vel (tokens.filter notMarker) 0 := by
  unfold pendingEvents
  rw [collect_filter, stripMarkers_filter, ← collect_filter]

/-! ## Claim C8 -/

set_option maxRecDepth 20000 in
/-- C8: every token in [0, 289] renders to the label matching its range —
never the "UNKNOWN" label — and every integer outside [0, 289] renders to
the explicit "UNKNOWN" label; the function is total by construction. -/
theorem token_to_readable_total :
    (∀ i : Fin 290,
      token_to_readable ((i : Nat) : Int) ≠ "UNKNOWN " ++ toString ((i : Nat) : Int)) ∧
    (∀ i : Fin 290,
      (((i : Nat) : Int) ≤ 127 →
        token_to_readable ((i : Nat) : Int) = "NOTE_ON " ++ toString ((i : Nat) : Int)) ∧
      ((128 : Int) ≤ ((i : Nat) : Int) ∧ ((i : Nat) : Int) ≤ 255 →
        token_to_readable ((i : Nat) : Int) = "NOTE_OFF " ++ toString (((i : Nat) : Int) - 128)) ∧
      ((256 : Int) ≤ ((i : Nat) : Int) ∧ ((i : Nat) : Int) ≤ 287 →
        token_to_readable ((i : Nat) : Int) =
          "TIME_SHIFT " ++ toString (TIME_SHIFTS.getD ((i : Nat) - 256) 0)) ∧
      (((i : Nat) : Int) = 288 → token_to_readable ((i : Nat) : Int) = "START_SEQUENCE") ∧
      (((i : Nat) : Int) = 289 → token_to_readable ((i : Nat) : Int) = "END_SEQUENCE")) ∧
    (∀ t : Int, t < 0 ∨ 289 < t → token_to_readable t = "UNKNOWN " ++ toString t) := by
  refine ⟨by decide, by decide, ?_⟩
  intro t ht
  have e1 : START_SEQUENCE = (288 : Int) := rfl
  have e2 : END_SEQUENCE = (289 : Int) := rfl
  have e3 : TIME_SHIFT_BASE = (256 : Int) := rfl
  unfold token_to_readable
  rw [e1, e2]
  rw [if_neg (by omega), if_neg (by omega), if_neg (by omega), if_neg (by omega)]
  have hrev : REVERSE_TIME_SHIFT_MAP t = none := by
    unfold REVERSE_TIME_SHIFT_MAP
    rw [e3]
    rw [if_neg (by omega)]
  rw [hrev]

/-- Witness for C8 at the out-of-range token 300. -/
theorem token_to_readable_total_witness :
    token_to_readable 300 = "UNKNOWN " ++ toString (300 : Int) :=
  token_to_readable_total.2.2 300 (Or.inr (by decide))

/-! ## Claim C9 -/

theorem reverse_map_pos (t s : Int) (h : REVERSE_TIME_SHIFT_MAP t = some s) : 0 < s := by
  unfold REVERSE_TIME_SHIFT_MAP at h
  split at h
  · have hm : s ∈ TIME_SHIFTS := List.getElem?_mem h
    have hall : ∀ d ∈ TIME_SHIFTS, 0 < d := by decide
    exact hall s hm
  · simp at h

theorem collect_time_lb (vel : Int) (ts : List Int) (cur : Int) :
    ∀ p ∈ collect vel ts cur, cur ≤ p.1 := by
  induction ts generalizing cur with
  | nil =>
    intro p hp
    simp [collect] at hp
  | cons t ts ih =>
    intro p hp
    simp only [collect] at hp
    by_cases h1 : 0 ≤ t ∧ t ≤ 127
    · rw [if_pos h1] at hp
      rcases List.mem_cons.mp hp with heq | hmem
      · subst heq
        exact le_refl _
      · exact ih cur p hmem
    · rw [if_neg h1] at hp
      by_cases h2 : 128 ≤ t ∧ t ≤ 255
      · rw [if_pos h2] at hp
        rcases List.mem_cons.mp hp with heq | hmem
        · subst heq
          exact le_refl _
        · exact ih cur p hmem
      · rw [if_neg h2] at hp
        rcases hrev : REVERSE_TIME_SHIFT_MAP t with _ | s
        · rw [hrev] at hp
          exact ih cur p hp
        · rw [hrev] at hp
          have hrec := ih (cur + s) p hp
          have hs := reverse_map_pos t s hrev
          omega

theorem deltaTrack_time_nonneg (l : List (Int × MidiMsg)) (last : Int)
    (hlb : ∀ p ∈ l, last ≤ p.1)
    (hsort : l.Pairwise (fun a b => a.1 ≤ b.1)) :
    ∀ m ∈ deltaTrack l last, 0 ≤ m.time := by
  induction l generalizing last with
  | nil =>
    intro m hm
    simp [deltaTrack] at hm
  | cons p l ih =>
    obtain ⟨t, msg⟩ := p
    intro m hm
    simp only [deltaTrack] at hm
    rcases List.mem_cons.mp hm with heq | hmem
    · subst heq
      have hlt : last ≤ t := hlb (t, msg) (List.mem_cons_self _ _)
      show 0 ≤ t - last
      omega
    · have hpair := List.pairwise_cons.mp hsort
      have hlb' : ∀ q ∈ l, t ≤ q.1 := fun q hq => hpair.1 q hq
      exact ih t hlb' hpair.2 m hmem

/-- C9: for every input token sequence, every delta time attached to an
emitted message is non-negative: the cursor starts at 0 and only ever grows
by positive table durations, and the pending events are sorted by time
before deltas are taken. -/
theorem track_deltas_nonneg (tokens : List Int) (vel : Int) :
    ∀ m ∈ tokens_to_midi_track tokens vel, 0 ≤ m.time := by
  unfold tokens_to_midi_track
  apply deltaTrack_time_nonneg
  · intro p hp
    have hmem : p ∈ pendingEvents tokens vel :=
      (List.perm_insertionSort _ _).mem_iff.mp hp
    exact collect_time_lb vel _ 0 p hmem
  · haveI : IsTotal (Int × MidiMsg) (fun a b => a.1 ≤ b.1) :=
      ⟨fun a b => le_total a.1 b.1⟩
    haveI : IsTrans (Int × MidiMsg) (fun a b => a.1 ≤ b.1) :=
      ⟨fun a b c h1 h2 => le_trans h1 h2⟩
    exact List.sorted_insertionSort _ _

set_option maxRecDepth 8000 in
/-- Witness for C9 on a concrete token sequence and emitted message. -/
theorem track_deltas_nonneg_witness :
    ((⟨"note_off", 60, 0, 480⟩ : MidiMsg) ∈ tokens_to_midi_track [288, 60, 266, 188, 289] 64) ∧
      (0 : Int) ≤ (⟨"note_off", 60, 0, 480⟩ : MidiMsg).time :=
  ⟨by decide, track_deltas_nonneg [288, 60, 266, 188, 289] 64 _ (by decide)⟩

/-! ## Claim C10 -/

theorem find_closest_bounds (delta t : Int)
    (h : find_closest_time_shift delta = some t) :
    256 ≤ t ∧ t ≤ 287 := by
  unfold find_closest_time_shift at h
  split at h
  · simp at h
  · rcases hpm : pyMin (fun x => |x - delta|) TIME_SHIFTS with _ | r
    · rw [hpm] at h
      simp at h
    · rw [hpm] at h
      simp only [Option.some_bind] at h
      unfold TIME_SHIFT_MAP at h
      split at h
      · rename_i hmem
        have hlt : TIME_SHIFTS.indexOf r < TIME_SHIFTS.length :=
          List.indexOf_lt_length.mpr hmem
        have hlen : TIME_SHIFTS.length = 32 := rfl
        have ht : t = TIME_SHIFT_BASE + (TIME_SHIFTS.indexOf r : Int) :=
          (Option.some.inj h).symm
        rw [ht]
        have e3 : TIME_SHIFT_BASE = (256 : Int) := rfl
        rw [e3]
        omega
      · simp at h

theorem eventBodyTokens_bounds (evs : List Event)
    (h : ∀ e ∈ evs, 0 ≤ e.2.2 ∧ e.2.2 ≤ 127) :
    ∀ t ∈ eventBodyTokens evs, 0 ≤ t ∧ t ≤ 287 := by
  induction evs with
  | nil =>
    intro t ht
    simp [eventBodyTokens] at ht
  | cons e rest ih =>
    intro t ht
    simp only [eventBodyTokens] at ht
    rcases List.mem_cons.mp ht with heq | hmem
    · subst heq
      have he := h e (List.mem_cons_self _ _)
      unfold noteToken
      by_cases hk : e.2.1 = "note_on"
      · rw [if_pos hk]
        omega
      · rw [if_neg hk]
        omega
    · rcases List.mem_append.mp hmem with hchunk | hbody
      · cases rest with
        | nil => simp at hchunk
        | cons e2 rest' =>
          simp only [shiftChunk] at hchunk
          by_cases hd : 0 < e2.1 - e.1
          · rw [if_pos hd] at hchunk
            rcases hfc : find_closest_time_shift (e2.1 - e.1) with _ | u
            · rw [hfc] at hchunk
              simp at hchunk
            · rw [hfc] at hchunk
              have hb := find_closest_bounds _ _ hfc
              have htu : t = u := by simpa using hchunk
              omega
          · rw [if_neg hd] at hchunk
            simp at hchunk
      · exact ih (fun e' he' => h e' (List.mem_cons.mpr (Or.inr he'))) t hbody

/-- C10: for events with pitches in [0, 127], every emitted token lies in
[0, 289]; 288 occurs exactly once (first) and 289 exactly once (last), each
interior token lies in [0, 287], and the empty event list tokenizes to
exactly [288, 289]. -/
theorem tokens_range_invariant (evs : List Event)
    (h : ∀ e ∈ evs, 0 ≤ e.2.2 ∧ e.2.2 ≤ 127) :
    (∀ t ∈ events_to_tokens evs, 0 ≤ t ∧ t ≤ 289) ∧
    (events_to_tokens evs).count 288 = 1 ∧
    (events_to_tokens evs).count 289 = 1 ∧
    (events_to_tokens evs).head? = some 288 ∧
    (events_to_tokens evs).getLast? = some 289 ∧
    (∀ t ∈ ((events_to_tokens evs).drop 1).dropLast, 0 ≤ t ∧ t ≤ 287) ∧
    (evs = [] → events_to_tokens evs = [288, 289]) := by
  have hbody := eventBodyTokens_bounds evs h
  have hb288 : (288 : Int) ∉ eventBodyTokens evs := by
    intro hmem
    have := hbody _ hmem
    omega
  have hb289 : (289 : Int) ∉ eventBodyTokens evs := by
    intro hmem
    have := hbody _ hmem
    omega
  refine ⟨?_, ?_, ?_, rfl, ?_, ?_, ?_⟩
  · intro t ht
    simp only [events_to_tokens] at ht
    rcases List.mem_cons.mp ht with heq | hmem
    · subst heq
      exact ⟨by decide, by decide⟩
    · rcases List.mem_append.mp hmem with hb | he
      · have := hbody t hb
        omega
      · have : t = END_SEQUENCE := by simpa using he
        subst this
        exact ⟨by decide, by decide⟩
  · simp [events_to_tokens, List.count_cons, List.count_append,
      START_SEQUENCE, END_SEQUENCE, List.count_eq_zero.mpr hb288]
  · simp [events_to_tokens, List.count_cons, List.count_append,
      START_SEQUENCE, END_SEQUENCE, List.count_eq_zero.mpr hb289]
  · show ((START_SEQUENCE :: eventBodyTokens evs) ++ [END_SEQUENCE]).getLast? = some 289
    exact List.getLast?_concat _
  · intro t ht
    have hinterior : ((events_to_tokens evs).drop 1).dropLast = eventBodyTokens evs := by
      simp only [events_to_tokens, List.drop_one, List.tail_cons]
      exact List.dropLast_concat
    rw [hinterior] at ht
    exact hbody t ht
  · intro he
    subst he
    rfl

/-- Witness for C10 on a concrete event list with in-range pitches. -/
theorem tokens_range_invariant_witness :
    (∀ t ∈ events_to_tokens [(0, "note_on", 60), (480, "note_off", 60)], 0 ≤ t ∧ t ≤ 289) ∧
    (events_to_tokens [(0, "note_on", 60), (480, "note_off", 60)]).count 288 = 1 ∧
    (events_to_tokens [(0, "note_on", 60), (480, "note_off", 60)]).count 289 = 1 ∧
    (events_to_tokens [(0, "note_on", 60), (480, "note_off", 60)]).head? = some 288 ∧
    (events_to_tokens [(0, "note_on", 60), (480, "note_off", 60)]).getLast? = some 289 ∧
    (∀ t ∈ ((events_to_tokens [(0, "note_on", 60), (480, "note_off", 60)]).drop 1).dropLast,
      0 ≤ t ∧ t ≤ 287) ∧
    ([(0, "note_on", 60), (480, "note_off", 60)] = ([] : List Event) →
      events_to_tokens [(0, "note_on", 60), (480, "note_off", 60)] = [288, 289]) :=
  tokens_range_invariant [(0, "note_on", 60), (480, "note_off", 60)] (by decide)

/-! ## Claim C5 -/

theorem getElem?_eq_some_getD (l : List Int) (j : Nat) (hj : j < l.length) :
    l[j]? = some (l.getD j 0) := by
  rw [List.getElem?_eq_getElem hj, List.getD_eq_getElem?_getD, List.getElem?_eq_getElem hj]
  rfl

/-- A position that minimizes a key with all strictly earlier positions
strictly larger is unique. -/
theorem firstmin_unique (g : Nat → Int) {n i i' : Nat}
    (hi : i < n) (hmin : ∀ j, j < n → g i ≤ g j) (hfirst : ∀ j, j < i → g i < g j)
    (hi' : i' < n) (hmin' : ∀ j, j < n → g i' ≤ g j) (hfirst' : ∀ j, j < i' → g i' < g j) :
    i = i' := by
  rcases lt_trichotomy i i' with h | h | h
  · have h1 := hfirst' i h
    have h2 := hmin i' hi'
    omega
  · exact h
  · have h1 := hfirst i' h
    have h2 := hmin' i hi
    omega

/-- The index scan `argminFold g 0 (range' 1 31)` returns the first position
in 0..31 minimizing `g`. -/
theorem argminFold_range_spec (g : Nat → Int) :
    ∃ i : Nat, i < 32 ∧ argminFold g 0 (List.range' 1 31) = i ∧
      (∀ j, j < 32 → g i ≤ g j) ∧ (∀ j, j < i → g i < g j) := by
  rcases argminFold_split g 0 (List.range' 1 31) with ⟨heq, hmin⟩ | ⟨l1, l2, hsplit, hlt, hl1, hl2⟩
  · refine ⟨0, by omega, heq, ?_, fun j hj => absurd hj (Nat.not_lt_zero j)⟩
    intro j hj
    rcases Nat.eq_zero_or_pos j with hj0 | hjpos
    · subst hj0
      exact le_refl _
    · refine hmin j ?_
      rw [List.mem_range']
      exact ⟨j - 1, by omega, by omega⟩
  · set r := argminFold g 0 (List.range' 1 31) with hrdef
    have hrmem : r ∈ List.range' 1 31 := by
      rw [hsplit]
      exact List.mem_append.mpr (Or.inr (List.mem_cons_self _ _))
    have hrrange : 1 ≤ r ∧ r < 32 := by
      rw [List.mem_range'] at hrmem
      obtain ⟨i, hi, hival⟩ := hrmem
      omega
    have hl1len : l1.length < 31 := by
      have h2 : l1.length < (l1 ++ r :: l2).length := by
        simp only [List.length_append, List.length_cons]
        omega
      rw [← hsplit] at h2
      have hlen31 : (List.range' 1 31).length = 31 := by simp
      omega
    have hpos : (List.range' 1 31)[l1.length]? = some r := by
      rw [hsplit]
      exact getElem?_append_cons l1 r l2
    have hrval : r = l1.length + 1 := by
      rw [List.getElem?_range' 1 1 hl1len] at hpos
      have hh := Option.some.inj hpos
      omega
    refine ⟨r, by omega, rfl, ?_, ?_⟩
    · intro j hj
      rcases Nat.eq_zero_or_pos j with hj0 | hjpos
      · subst hj0
        exact le_of_lt hlt
      · have hjmem : j ∈ List.range' 1 31 := by
          rw [List.mem_range']
          exact ⟨j - 1, by omega, by omega⟩
        rw [hsplit] at hjmem
        rcases List.mem_append.mp hjmem with hj1 | hj2
        · exact le_of_lt (hl1 j hj1)
        · rcases List.mem_cons.mp hj2 with hjr | hj3
          · subst hjr
            exact le_refl _
          · exact hl2 j hj3
    · intro j hj
      rcases Nat.eq_zero_or_pos j with hj0 | hjpos
      · subst hj0
        exact hlt
      · have hjm : j - 1 < l1.length := by omega
        have hjget : l1[j - 1]? = some j := by
          have hg1 : (List.range' 1 31)[j - 1]? = some j := by
            rw [List.getElem?_range' 1 1 (by omega)]
            congr 1
            omega
          rw [hsplit, List.getElem?_append_left hjm] at hg1
          exact hg1
        exact hl1 j (List.getElem?_mem hjget)

theorem specClosest_props (delta : Int) :
    ∃ i : Nat, i < 32 ∧ specClosestShiftToken delta = TIME_SHIFT_BASE + (i : Int) ∧
      (∀ j, j < 32 → |TIME_SHIFTS.getD i 0 - delta| ≤ |TIME_SHIFTS.getD j 0 - delta|) ∧
      (∀ j, j < i → |TIME_SHIFTS.getD i 0 - delta| < |TIME_SHIFTS.getD j 0 - delta|) := by
  obtain ⟨i, hi32, heq, hmin, hfirst⟩ :=
    argminFold_range_spec (fun j => |TIME_SHIFTS.getD j 0 - delta|)
  refine ⟨i, hi32, ?_, hmin, hfirst⟩
  unfold specClosestShiftToken
  rw [heq]

/-- The code's value-level closest-shift lookup agrees with the spec-side
first-minimizing-index selection for every nonzero positive delta. -/
theorem find_closest_eq_specToken (delta : Int) (h : 0 < delta) :
    find_closest_time_shift delta = some (specClosestShiftToken delta) := by
  obtain ⟨k, d, hget, heq, hmin, hfirst⟩ := find_closest_time_shift_spec delta h
  obtain ⟨i, hi32, hspec, hmin', hfirst'⟩ := specClosest_props delta
  obtain ⟨hk32, hdk⟩ := List.getElem?_eq_some_iff.mp hget
  have hk32' : k < 32 := by
    have hlen : TIME_SHIFTS.length = 32 := rfl
    omega
  have hgd : TIME_SHIFTS.getD k 0 = d := by
    rw [List.getD_eq_getElem?_getD, hget]
    rfl
  have hminP : ∀ j, j < 32 → |TIME_SHIFTS.getD k 0 - delta| ≤ |TIME_SHIFTS.getD j 0 - delta| := by
    intro j hj
    have hjlen : j < TIME_SHIFTS.length := by
      have hlen : TIME_SHIFTS.length = 32 := rfl
      omega
    rw [hgd]
    exact hmin _ (List.getElem?_mem (getElem?_eq_some_getD TIME_SHIFTS j hjlen))
  have hfirstP : ∀ j, j < k → |TIME_SHIFTS.getD k 0 - delta| < |TIME_SHIFTS.getD j 0 - delta| := by
    intro j hj
    have hjlen : j < TIME_SHIFTS.length := by
      have hlen : TIME_SHIFTS.length = 32 := rfl
      omega
    rw [hgd]
    exact hfirst j hj _ (getElem?_eq_some_getD TIME_SHIFTS j hjlen)
  have hki : k = i :=
    firstmin_unique (fun j => |TIME_SHIFTS.getD j 0 - delta|)
      hk32' hminP hfirstP hi32 hmin' hfirst'
  rw [heq, hspec, hki]

/-- C5: for every event list sorted ascending by time, the emitted token
sequence begins with START_SEQUENCE (288), ends with END_SEQUENCE (289), and
equals the spec-side rendering in which a time-shift token appears between
two consecutive events exactly when their time difference is strictly
positive and never after the last event. -/
theorem forward_structure (evs : List Event)
    (_hs : evs.Pairwise (fun a b : Event => a.1 ≤ b.1)) :
    (events_to_tokens evs).head? = some START_SEQUENCE ∧
    (events_to_tokens evs).getLast? = some END_SEQUENCE ∧
    events_to_tokens evs = specForwardTokens evs := by
  have hbody : eventBodyTokens evs = specBodyTokens evs := by
    clear _hs
    induction evs with
    | nil => rfl
    | cons e rest ih =>
      cases rest with
      | nil => rfl
      | cons e2 rest' =>
        show noteToken e :: (shiftChunk e e2 ++ eventBodyTokens (e2 :: rest')) =
          noteToken e ::
            ((if 0 < e2.1 - e.1 then [specClosestShiftToken (e2.1 - e.1)] else []) ++
              specBodyTokens (e2 :: rest'))
        rw [ih]
        have hchunk : shiftChunk e e2 =
            (if 0 < e2.1 - e.1 then [specClosestShiftToken (e2.1 - e.1)] else []) := by
          unfold shiftChunk
          by_cases hd : 0 < e2.1 - e.1
          · rw [if_pos hd, if_pos hd, find_closest_eq_specToken _ hd]
          · rw [if_neg hd, if_neg hd]
        rw [hchunk]
  refine ⟨rfl, ?_, ?_⟩
  · show ((START_SEQUENCE :: eventBodyTokens evs) ++ [END_SEQUENCE]).getLast? =
      some END_SEQUENCE
    exact List.getLast?_concat _
  · unfold events_to_tokens specForwardTokens
    rw [hbody]

/-- Witness for C5 on a concrete sorted event list. -/
theorem forward_structure_witness :
    (events_to_tokens [(0, "note_on", 60), (480, "note_off", 60)]).head? =
      some START_SEQUENCE ∧
    (events_to_tokens [(0, "note_on", 60), (480, "note_off", 60)]).getLast? =
      some END_SEQUENCE ∧
    events_to_tokens [(0, "note_on", 60), (480, "note_off", 60)] =
      specForwardTokens [(0, "note_on", 60), (480, "note_off", 60)] :=
  forward_structure [(0, "note_on", 60), (480, "note_off", 60)] (by decide)

end Midigen
